import Mathlib

/-!
# wave_of_hell: the spectrum engine of `main.go`

A shallow embedding of `updateSpectrumValues` and of one iteration of the
frame loop of `play`, followed by theorems about them.

Conventions of the embedding.

* `float64` values are modelled as exact rationals (`ℚ`): the arithmetic the
  source itself performs (`+`, `-`, `*`, `/ 2.0`, `>`, `math.Min`, `math.Max`,
  `math.Abs`) is exact; infinities and NaN are outside the model.
* Where the rounding of `float64` changes the result, namely in the repeated
  averaging of the rise of a band, the update is `smooth64`: the same lines
  with each operation rounded to binary64 by `round64` (to nearest, ties to
  even, 53 significant bits, gradual underflow).
* Slices are lists; an indexing that would panic in Go makes the embedded
  function return `none`.
* Functions of imported packages that the source calls but does not define
  (`window.Blackman`, `fft.FFTReal`, `math.Sqrt`) are fields of the structure
  `Lib`; what a theorem needs from them is an explicit hypothesis.
-/

namespace WaveOfHell

/-! ## Constants (`main.go`, lines 18-25) -/

def numSamples : Nat := 4608
def defaultWindowWidth : Int := 800
def defaultWindowHeight : Int := 450
def spectrumSize : Nat := 80
def peakFalloff : ℚ := 8
def bitSize : Nat := 64

/-! ## `strconv.ParseFloat(string(buffer[i]), bitSize)` -/

/-- A byte of the input buffer (`[]byte`). -/
abbrev Byte := Fin 256

/-- Go's conversion `string(b)` of a byte: the string holding the single code
point `b` (for `b ≥ 0x80` its UTF-8 form has two bytes, still one rune). -/
def goString (b : Byte) : List Char := [Char.ofNat b.val]

/-- The error result of `strconv.ParseFloat`. -/
inductive ParseErr where
  | invalid
  deriving DecidableEq, Repr

/-- Leading run of decimal digits: the accumulated value, the number of digits
read and the rest of the input. -/
def readDigits : List Char → Nat → Nat → Nat × Nat × List Char
  | [], acc, n => (acc, n, [])
  | c :: cs, acc, n =>
    if c.isDigit then readDigits cs (acc * 10 + (c.toNat - 48)) (n + 1)
    else (acc, n, c :: cs)

/-- An optional sign: whether it is a minus, and the rest of the input. -/
def readSign : List Char → Bool × List Char
  | '+' :: r => (false, r)
  | '-' :: r => (true, r)
  | s => (false, s)

/-- The optional decimal exponent `e[+-]ddd`; `none` when an `e` is followed
by no digit. -/
def readExponent : List Char → Option (Int × List Char)
  | [] => some (0, [])
  | c :: r =>
    if c = 'e' ∨ c = 'E' then
      let sg := readSign r
      let ds := readDigits sg.2 0 0
      if ds.2.1 = 0 then none
      else some (if sg.1 then -(ds.1 : Int) else (ds.1 : Int), ds.2.2)
    else some (0, c :: r)

/-- The value `m * 10 ^ k`. -/
def scale10 (m : ℚ) (k : Int) : ℚ :=
  if 0 ≤ k then m * (10 : ℚ) ^ k.toNat else m / (10 : ℚ) ^ (-k).toNat

/-- Model of `strconv.ParseFloat` on decimal literals
`[+-] digits [. digits] [e [+-] digits]` with at least one mantissa digit; the
whole string must be consumed.  On a malformed string the result is `0` with an
error, as in Go.  The words `inf`, `infinity`, `nan`, hexadecimal literals and
digit-separating underscores (all of three characters or more) are not part of
this grammar. -/
def parseFloat (s : List Char) (_bits : Nat) : ℚ × Option ParseErr :=
  let sg := readSign s
  let ip := readDigits sg.2 0 0
  let fp : Nat × Nat × List Char :=
    match ip.2.2 with
    | '.' :: r => readDigits r ip.1 0
    | r => (ip.1, 0, r)
  if ip.2.1 + fp.2.1 = 0 then (0, some ParseErr.invalid)
  else
    match readExponent fp.2.2 with
    | some (e, []) =>
      let v := scale10 (fp.1 : ℚ) (e - (fp.2.1 : Int))
      (if sg.1 then -v else v, none)
    | _ => (0, some ParseErr.invalid)

/-! ## External library functions -/

/-- The functions of imported packages used by `updateSpectrumValues`. -/
structure Lib where
  /-- The coefficient table `window.Blackman(n)`. -/
  blackman : Nat → List ℚ
  /-- The transform `fft.FFTReal`: real samples to complex bins `(re, im)`. -/
  fftReal : List ℚ → List (ℚ × ℚ)
  /-- The function `math.Sqrt`. -/
  sqrt : ℚ → ℚ

/-- The function `window.Apply(x, w)` of go-dsp:
`for i, c := range w(len(x)) { x[i] *= c }`. -/
def windowApply (x : List ℚ) (w : Nat → List ℚ) : Option (List ℚ) :=
  let cs := w x.length
  if cs.length ≤ x.length then some (List.zipWith (· * ·) x cs ++ x.drop cs.length)
  else none

/-! ## `updateSpectrumValues` (`main.go`, lines 169-193) -/

/-- A counted loop `for i := 0; i < n; i++ { body }` over a state. -/
def forRange {σ : Type} (n : Nat) (body : σ → Nat → Option σ) (s : σ) : Option σ :=
  (List.range n).foldlM body s

/-- The value line 172 stores for the byte `b`:
`strconv.ParseFloat(string(b), bitSize)` with the error discarded. -/
def sampleOfByte (b : Byte) : ℚ := (parseFloat (goString b) bitSize).1

/-- Line 172: `audioWave[i], _ = strconv.ParseFloat(string(buffer[i]), bitSize)`. -/
def sampleStep (buffer : List Byte) (audioWave : List ℚ) (i : Nat) : Option (List ℚ) :=
  match buffer[i]? with
  | none => none
  | some b =>
    if i < audioWave.length then
      some (audioWave.set i (sampleOfByte b))
    else none

/-- Lines 183-186: the clamped magnitude `val` of one bin. -/
def clampedMagnitude (L : Lib) (maxValue : ℚ) (c : ℚ × ℚ) : ℚ :=
  let fr := c.1
  let fi := c.2
  let magnitude := L.sqrt (fr * fr + fi * fi)
  min maxValue |magnitude|

/-- Lines 187-191: the new value of a band from its previous value and `val`. -/
def smooth (prev val : ℚ) : ℚ :=
  if prev > val then max (prev - peakFalloff) 0 else (val + prev) / 2

/-- Lines 183-191: the body of the magnitude loop at index `i`. -/
def bandStep (L : Lib) (maxValue : ℚ) (fftOutput : List (ℚ × ℚ))
    (freqSpectrum : List ℚ) (i : Nat) : Option (List ℚ) :=
  match fftOutput[i]? with
  | none => none
  | some c =>
    let val := clampedMagnitude L maxValue c
    match freqSpectrum[i]? with
    | none => none
    | some prev => some (freqSpectrum.set i (smooth prev val))

/-- The function `updateSpectrumValues`; the result is the new contents of
`audioWave` and of `freqSpectrum`, or `none` when an index is out of range. -/
def updateSpectrumValues (L : Lib) (buffer : List Byte) (audioWave : List ℚ)
    (_sampleRate : Int) (maxValue : ℚ) (freqSpectrum : List ℚ) :
    Option (List ℚ × List ℚ) :=
  match forRange numSamples (sampleStep buffer) audioWave with
  | none => none
  | some aw =>
    match windowApply aw L.blackman with
    | none => none
    | some windowed =>
      let fftOutput := L.fftReal windowed
      match forRange spectrumSize (bandStep L maxValue fftOutput) freqSpectrum with
      | none => none
      | some fs => some (windowed, fs)

/-! ## The smoothing update in binary64 arithmetic -/

/-- The exponent of the binade of `x` in binary64: `⌊log₂ |x|⌋`, and the least
normal exponent `-1022` for a subnormal `x`. -/
def binadeExp (x : ℚ) : ℤ := max (Int.log 2 |x|) (-1022)

/-- The spacing of the binary64 numbers around `x`: 53 significant bits, and
`2 ^ (-1074)` in the subnormal range. -/
def ulp (x : ℚ) : ℚ := (2 : ℚ) ^ (binadeExp x - 52)

/-- The integer nearest to `q`, a tie going to the even one. -/
def roundEven (q : ℚ) : ℤ :=
  if q - ⌊q⌋ < 1 / 2 then ⌊q⌋
  else if 1 / 2 < q - ⌊q⌋ then ⌊q⌋ + 1
  else if ⌊q⌋ % 2 = 0 then ⌊q⌋ else ⌊q⌋ + 1

/-- The binary64 result of an operation whose exact result is `x`: `x` rounded to
the nearest binary64 number, ties to even.  A result of magnitude `2 ^ 1024` or
more, which binary64 replaces by an infinity, is outside the model; the
theorems on `round64` keep every sum below that bound. -/
def round64 (x : ℚ) : ℚ := (roundEven (x / ulp x) : ℚ) * ulp x

/-- Lines 187-191 with each `float64` operation rounded: the comparison and
`math.Max` are exact, the subtraction, the addition and the division by `2.0`
round their result. -/
def smooth64 (prev val : ℚ) : ℚ :=
  if prev > val then max (round64 (prev - peakFalloff)) 0
  else round64 (round64 (val + prev) / 2)

/-- A clamped magnitude whose last significand bit is set:
`3 + 3 * 2 ^ (-51)`, the `float64` `0x1.8000000000003p+1`. -/
def oddBitMagnitude : ℚ := 6755399441055747 / 2 ^ 51

/-- The values `val` of the magnitude loop in index order: one per index
`i < spectrumSize`, computed from bin `i`. -/
def bandMagnitudes (L : Lib) (maxValue : ℚ) (fftOutput : List (ℚ × ℚ)) : List ℚ :=
  (fftOutput.take spectrumSize).map (clampedMagnitude L maxValue)

/-- Successive calls of `updateSpectrumValues`, one per frame, each with its
own input block and `maxValue`, threading `audioWave` and `freqSpectrum`. -/
def runFrames (L : Lib) (frames : List (List Byte × ℚ)) (st : List ℚ × List ℚ) :
    Option (List ℚ × List ℚ) :=
  frames.foldlM (fun s f => updateSpectrumValues L f.1 s.1 0 f.2 s.2) st

/-! ## One iteration of the frame loop of `play` (`main.go`, lines 49-96) -/

/-- The conversion `int32(x)` of a Go `int`. -/
def toInt32 (x : Int) : Int := (x + 2 ^ 31) % 2 ^ 32 - 2 ^ 31

/-- The error of `d.Read`: `io.EOF` or any other error. -/
inductive ReadErr where
  | eof
  | other (msg : String)
  deriving DecidableEq, Repr

/-- How an iteration ends the run: `play` returns an error, or a slice index
is out of range. -/
inductive Abort where
  | returned (err : String)
  | indexOutOfRange
  deriving DecidableEq, Repr

/-- The local variables of `play` that live across iterations. -/
structure PlayState where
  buf : List Byte
  audioWave : List ℚ
  freqSpectrum : List ℚ
  windowWidth : Int
  windowHeight : Int
  isPlaying : Bool
  nowPlayingText : String
  deriving DecidableEq, Repr

/-- What the environment supplies during one iteration. -/
structure Frame where
  /-- Result of `rl.GetScreenWidth()`. -/
  screenWidth : Int
  /-- Result of `rl.GetScreenHeight()`. -/
  screenHeight : Int
  /-- The paths of `rl.LoadDroppedFiles()` when `rl.IsFileDropped()` holds. -/
  dropped : Option (List String)
  /-- Outcome of `updateFileHandlers`: the file name, or the error. -/
  updateFileHandlers : String → Except String String
  /-- The bytes `d.Read(buf)` stores at the front of `buf`. -/
  readBytes : List Byte
  /-- The error returned by `d.Read(buf)`. -/
  readErr : Option ReadErr
  /-- Result of `d.SampleRate()`. -/
  sampleRate : Int

/-- What one iteration draws. -/
inductive View where
  | dropzone
  | spectrum (bars : List ℚ) (text : String)
  deriving DecidableEq, Repr

/-- The outcome of an iteration that does not end the run. -/
structure StepResult where
  state : PlayState
  view : View
  /-- The buffer handed to `p.Write`, if it was called. -/
  written : Option (List Byte)
  deriving DecidableEq, Repr

/-- The function `handleFileDrop` (lines 103-119). -/
def handleFileDrop (filePaths : List String)
    (updateFileHandlers : String → Except String String) : Bool × String × Option String :=
  match filePaths with
  | [] => (false, "", none)
  | newFile :: _ =>
    if newFile.endsWith ".mp3" then
      match updateFileHandlers newFile with
      | Except.error err => (false, err, some err)
      | Except.ok fileName => (true, fileName, none)
    else (false, "Bad file type", none)

/-- The contents of `buf` after `d.Read(buf)` stored `bytes` at its front. -/
def readInto (buf bytes : List Byte) : List Byte :=
  (bytes ++ buf.drop bytes.length).take buf.length

/-- Lines 57-66: the file-drop handling; the new `isPlaying` and
`nowPlayingText`. -/
def dropStep (fr : Frame) (st : PlayState) : Except Abort (Bool × String) :=
  match fr.dropped with
  | none => Except.ok (st.isPlaying, st.nowPlayingText)
  | some paths =>
    match handleFileDrop paths fr.updateFileHandlers with
    | (_, _, some err) => Except.error (Abort.returned err)
    | (isOk, fileName, none) =>
      if isOk then Except.ok (true, "Now Playing: " ++ fileName)
      else Except.ok (st.isPlaying, st.nowPlayingText)

/-- Lines 77-84: the value of `isPlaying` after the check of the read error. -/
def readCheck (isPlaying : Bool) : Option ReadErr → Except Abort Bool
  | none => Except.ok isPlaying
  | some ReadErr.eof => Except.ok false
  | some (ReadErr.other err) => Except.error (Abort.returned err)

/-- One iteration of the loop `for !rl.WindowShouldClose()` of `play`. -/
def playStep (L : Lib) (fr : Frame) (st : PlayState) : Except Abort StepResult :=
  let windowWidth := toInt32 fr.screenWidth
  let windowHeight := toInt32 fr.screenHeight
  match dropStep fr st with
  | Except.error e => Except.error e
  | Except.ok (isPlaying, text) =>
    if !isPlaying then
      Except.ok ⟨⟨st.buf, st.audioWave, st.freqSpectrum, windowWidth, windowHeight,
        isPlaying, text⟩, View.dropzone, none⟩
    else
      let buf := readInto st.buf fr.readBytes
      match readCheck isPlaying fr.readErr with
      | Except.error e => Except.error e
      | Except.ok playing =>
        match updateSpectrumValues L buf st.audioWave fr.sampleRate (windowHeight : ℚ)
            st.freqSpectrum with
        | none => Except.error Abort.indexOutOfRange
        | some (aw, fs) =>
          Except.ok ⟨⟨buf, aw, fs, windowWidth, windowHeight, playing, text⟩,
            View.spectrum fs text, some buf⟩

/-- The state of `play` when the loop is entered (lines 35-47). -/
def initState : PlayState :=
  ⟨List.replicate numSamples 0, List.replicate numSamples 0, List.replicate spectrumSize 0,
    defaultWindowWidth, defaultWindowHeight, false, ""⟩

/-! ## Contracts of the library functions and a concrete instance -/

/-- The length contracts of the library: `window.Blackman(n)` has `n`
coefficients and `fft.FFTReal` returns one bin per sample. -/
def Lib.Sized (L : Lib) : Prop :=
  (∀ n, (L.blackman n).length = n) ∧ ∀ xs, (L.fftReal xs).length = xs.length

/-- The transform of a silent block is silent, and `math.Sqrt(0) = 0`. -/
def Lib.Silent (L : Lib) : Prop :=
  (∀ n, L.fftReal (List.replicate n 0) = List.replicate n (0, 0)) ∧ L.sqrt 0 = 0

/-- A rational instance of the library interface, to run the pipeline on
examples: a triangular window table, a transform that puts the sum of the
block (the exact DFT bin 0) in every bin, and the integer square root of the
integer part. -/
def sampleLib : Lib where
  blackman n := (List.range n).map (fun (i : Nat) => ((min i (n - 1 - i) : Nat) : ℚ) / (n : ℚ))
  fftReal xs := xs.map (fun _ => (xs.sum, 0))
  sqrt x := (Nat.sqrt ⌊x⌋₊ : ℚ)

/-- The all-zero input block. -/
def silentBlock : List Byte := List.replicate numSamples 0

/-- A state of `play` during playback: every band at 100, the buffer of the
previous frame all zero, the window at its default size. -/
def playingState : PlayState :=
  ⟨silentBlock, List.replicate numSamples 0, List.replicate spectrumSize 100,
    defaultWindowWidth, defaultWindowHeight, true, "Now Playing: a.mp3"⟩

/-- A frame on which no file is dropped and `d.Read` returns no byte and
`io.EOF`. -/
def eofFrame : Frame :=
  ⟨800, 450, none, fun name => Except.ok name, [], some ReadErr.eof, 44100⟩

/-- A frame on which no file is dropped and `d.Read` fails with an error other
than `io.EOF`. -/
def failFrame : Frame :=
  ⟨800, 450, none, fun name => Except.ok name, [], some (ReadErr.other "read failed"), 44100⟩

/-! ## Loops -/

theorem forRange_zero {σ : Type} (body : σ → Nat → Option σ) (s : σ) :
    forRange 0 body s = some s := by
  simp [forRange]

theorem forRange_succ {σ : Type} (n : Nat) (body : σ → Nat → Option σ) (s : σ) :
    forRange (n + 1) body s = (forRange n body s).bind (fun t => body t n) := by
  simp [forRange, List.range_succ, List.foldlM_append]

/-- The magnitude loop run for `n` iterations: it succeeds when the bins and
the bands have at least `n` entries, keeps the length, rewrites band `i < n`
from its own previous value and bin `i`, and leaves the other bands alone. -/
theorem bandLoop_spec (L : Lib) (maxValue : ℚ) (fftOutput : List (ℚ × ℚ)) (fs : List ℚ) :
    ∀ n : Nat, n ≤ fftOutput.length → n ≤ fs.length →
      ∃ fs' : List ℚ, forRange n (bandStep L maxValue fftOutput) fs = some fs' ∧
        fs'.length = fs.length ∧
        (∀ i, i < n → ∀ (hb : i < fftOutput.length) (hf : i < fs.length),
          fs'[i]? = some (smooth fs[i] (clampedMagnitude L maxValue fftOutput[i]))) ∧
        (∀ i, n ≤ i → fs'[i]? = fs[i]?) := by
  intro n
  induction n with
  | zero =>
    intro _ _
    exact ⟨fs, forRange_zero _ _, rfl, fun i hi => absurd hi (Nat.not_lt_zero i), fun _ _ => rfl⟩
  | succ n ih =>
    intro hb hf
    obtain ⟨fs1, h1, hlen, hlow, hhigh⟩ := ih (Nat.le_of_succ_le hb) (Nat.le_of_succ_le hf)
    have hnb : n < fftOutput.length := hb
    have hnf : n < fs.length := hf
    have hn1 : fs1[n]? = some fs[n] := by
      rw [hhigh n (Nat.le_refl n)]
      exact List.getElem?_eq_getElem hnf
    refine ⟨fs1.set n (smooth fs[n] (clampedMagnitude L maxValue fftOutput[n])), ?_, ?_, ?_, ?_⟩
    · rw [forRange_succ, h1]
      simp [bandStep, List.getElem?_eq_getElem hnb, hn1]
    · simp [hlen]
    · intro i hi hib hif
      by_cases hin : i = n
      · subst hin
        rw [List.getElem?_set_self (by rw [hlen]; exact hnf)]
      · rw [List.getElem?_set_ne (fun h => hin h.symm)]
        exact hlow i (by omega) hib hif
    · intro i hi
      rw [List.getElem?_set_ne (by omega)]
      exact hhigh i (by omega)

/-- The sample loop run for `n` iterations. -/
theorem sampleLoop_spec (buffer : List Byte) (aw : List ℚ) :
    ∀ n : Nat, n ≤ buffer.length → n ≤ aw.length →
      ∃ aw' : List ℚ, forRange n (sampleStep buffer) aw = some aw' ∧
        aw'.length = aw.length ∧
        (∀ i, i < n → ∀ (hb : i < buffer.length),
          aw'[i]? = some (sampleOfByte buffer[i])) ∧
        (∀ i, n ≤ i → aw'[i]? = aw[i]?) := by
  intro n
  induction n with
  | zero =>
    intro _ _
    exact ⟨aw, forRange_zero _ _, rfl, fun i hi => absurd hi (Nat.not_lt_zero i), fun _ _ => rfl⟩
  | succ n ih =>
    intro hb hf
    obtain ⟨aw1, h1, hlen, hlow, hhigh⟩ := ih (Nat.le_of_succ_le hb) (Nat.le_of_succ_le hf)
    have hnb : n < buffer.length := hb
    have hnf : n < aw.length := hf
    refine ⟨aw1.set n (sampleOfByte buffer[n]), ?_, ?_, ?_, ?_⟩
    · rw [forRange_succ, h1]
      simp [sampleStep, List.getElem?_eq_getElem hnb, hlen, hnf, sampleOfByte]
    · simp [hlen]
    · intro i hi hib
      by_cases hin : i = n
      · subst hin
        rw [List.getElem?_set_self (by rw [hlen]; exact hnf)]
      · rw [List.getElem?_set_ne (fun h => hin h.symm)]
        exact hlow i (by omega) hib
    · intro i hi
      rw [List.getElem?_set_ne (by omega)]
      exact hhigh i (by omega)

theorem windowApply_sized (L : Lib) (hL : L.Sized) (x : List ℚ) :
    ∃ w : List ℚ, windowApply x L.blackman = some w ∧ w.length = x.length := by
  have hlen : (L.blackman x.length).length = x.length := hL.1 x.length
  refine ⟨List.zipWith (· * ·) x (L.blackman x.length) ++ x.drop (L.blackman x.length).length,
    ?_, ?_⟩
  · simp [windowApply, hlen]
  · simp [hlen]

/-- The whole of `updateSpectrumValues` on well-sized arguments: it returns,
the returned `audioWave` is the windowed block, and band `i < spectrumSize` is
rewritten from its own previous value and bin `i` of the transform of that
block. -/
theorem update_spec (L : Lib) (hL : L.Sized) (buffer : List Byte) (aw : List ℚ) (sr : Int)
    (maxValue : ℚ) (fs : List ℚ) (hbuf : numSamples ≤ buffer.length)
    (haw : numSamples ≤ aw.length) (hfs : spectrumSize ≤ fs.length) :
    ∃ aw1 aw' fs', forRange numSamples (sampleStep buffer) aw = some aw1 ∧
      windowApply aw1 L.blackman = some aw' ∧
      updateSpectrumValues L buffer aw sr maxValue fs = some (aw', fs') ∧
      aw'.length = aw.length ∧ fs'.length = fs.length ∧
      (∀ i, i < spectrumSize → ∃ c prev, (L.fftReal aw')[i]? = some c ∧ fs[i]? = some prev ∧
        fs'[i]? = some (smooth prev (clampedMagnitude L maxValue c))) ∧
      (∀ i, spectrumSize ≤ i → fs'[i]? = fs[i]?) := by
  obtain ⟨aw1, h1, hlen1, -, -⟩ := sampleLoop_spec buffer aw numSamples hbuf haw
  obtain ⟨aw', h2, hlen2⟩ := windowApply_sized L hL aw1
  have hfft : (L.fftReal aw').length = aw.length := by rw [hL.2, hlen2, hlen1]
  have h80 : spectrumSize ≤ numSamples := by decide
  have hb : spectrumSize ≤ (L.fftReal aw').length := by rw [hfft]; omega
  obtain ⟨fs', h3, hlen3, hlow, hhigh⟩ :=
    bandLoop_spec L maxValue (L.fftReal aw') fs spectrumSize hb hfs
  refine ⟨aw1, aw', fs', h1, h2, ?_, by rw [hlen2, hlen1], hlen3, ?_, hhigh⟩
  · simp [updateSpectrumValues, h1, h2, h3]
  · intro i hi
    have hib : i < (L.fftReal aw').length := by omega
    have hif : i < fs.length := by omega
    exact ⟨(L.fftReal aw')[i], fs[i], List.getElem?_eq_getElem hib,
      List.getElem?_eq_getElem hif, hlow i hi hib hif⟩

/-! ## The smoothing update -/

theorem smooth_of_le (p v : ℚ) (h : p ≤ v) : smooth p v = (v + p) / 2 := by
  unfold smooth
  rw [if_neg (not_lt.mpr h)]

theorem smooth_of_gt (p v : ℚ) (h : v < p) : smooth p v = max (p - 8) 0 := by
  unfold smooth peakFalloff
  rw [if_pos h]

theorem smooth_zero_of_nonneg (p : ℚ) (hp : 0 ≤ p) : smooth p 0 = max (p - 8) 0 := by
  unfold smooth peakFalloff
  split_ifs with h
  · rfl
  · have h0 : p = 0 := le_antisymm (not_lt.mp h) hp
    subst h0
    norm_num

theorem smooth_nonneg (prev val : ℚ) (hp : 0 ≤ prev) : 0 ≤ smooth prev val := by
  rcases lt_or_le val prev with h | h
  · rw [smooth_of_gt _ _ h]; exact le_max_right _ _
  · rw [smooth_of_le _ _ h]; linarith

theorem smooth_le_max (prev val : ℚ) (hp : 0 ≤ prev) : smooth prev val ≤ max prev val := by
  rcases lt_or_le val prev with h | h
  · rw [smooth_of_gt _ _ h, max_eq_left (le_of_lt h)]
    exact max_le (by linarith) hp
  · rw [smooth_of_le _ _ h, max_eq_right h]; linarith

theorem decay_spec (k : ℕ) : ∀ p : ℚ, 0 ≤ p →
    (List.replicate k (0 : ℚ)).foldl smooth p = max (p - k * 8) 0 := by
  induction k with
  | zero => intro p hp; simp [hp]
  | succ k ih =>
    intro p hp
    rw [List.replicate_succ, List.foldl_cons, smooth_zero_of_nonneg p hp,
      ih _ (le_max_right _ _)]
    push_cast
    rcases le_total (p - 8) 0 with h | h
    · rw [max_eq_right h, max_eq_right, max_eq_right]
      · have : (0 : ℚ) ≤ (k : ℚ) * 8 := by positivity
        linarith
      · have : (0 : ℚ) ≤ (k : ℚ) * 8 := by positivity
        linarith
    · rw [max_eq_left h]
      congr 1
      ring

/-! ## Rounding to binary64 -/

theorem ulp_pos (x : ℚ) : 0 < ulp x := by
  unfold ulp; positivity

theorem floor_le_roundEven (q : ℚ) : ⌊q⌋ ≤ roundEven q := by
  unfold roundEven
  split_ifs <;> omega

theorem roundEven_le_floor_succ (q : ℚ) : roundEven q ≤ ⌊q⌋ + 1 := by
  unfold roundEven
  split_ifs <;> omega

theorem roundEven_intCast (n : ℤ) : roundEven (n : ℚ) = n := by
  unfold roundEven
  simp

theorem roundEven_mono {a b : ℚ} (h : a ≤ b) : roundEven a ≤ roundEven b := by
  have hf : ⌊a⌋ ≤ ⌊b⌋ := Int.floor_mono h
  rcases lt_or_eq_of_le hf with hlt | heq
  · calc roundEven a ≤ ⌊a⌋ + 1 := roundEven_le_floor_succ a
      _ ≤ ⌊b⌋ := hlt
      _ ≤ roundEven b := floor_le_roundEven b
  · have hab : a - ⌊a⌋ ≤ b - ⌊b⌋ := by
      rw [heq]; linarith
    unfold roundEven
    rw [heq]
    split_ifs <;> first | omega | (exfalso; linarith)

theorem round64_zero : round64 0 = 0 := by
  simp [round64, roundEven]

theorem round64_nonneg {x : ℚ} (hx : 0 ≤ x) : 0 ≤ round64 x := by
  unfold round64
  have hq : 0 ≤ x / ulp x := div_nonneg hx (le_of_lt (ulp_pos x))
  have h0 : (0 : ℤ) ≤ roundEven (x / ulp x) :=
    le_trans (Int.floor_nonneg.mpr hq) (floor_le_roundEven _)
  exact mul_nonneg (by exact_mod_cast h0) (le_of_lt (ulp_pos x))

theorem log_eq_of_bounds {a : ℚ} {e : ℤ} (ha : 0 < a) (hlo : (2 : ℚ) ^ e ≤ a)
    (hhi : a < (2 : ℚ) ^ (e + 1)) : Int.log 2 a = e := by
  have h1 : e ≤ Int.log 2 a := (Int.zpow_le_iff_le_log (by norm_num) ha).mp (by exact_mod_cast hlo)
  have h2 : Int.log 2 a < e + 1 :=
    (Int.lt_zpow_iff_log_lt (by norm_num) ha).mp (by exact_mod_cast hhi)
  omega

theorem two_zpow_mono {a b : ℤ} (h : a ≤ b) : (2 : ℚ) ^ a ≤ (2 : ℚ) ^ b :=
  zpow_le_zpow_right₀ (by norm_num) h

theorem lt_two_zpow_binadeExp {x : ℚ} (hx : 0 ≤ x) : x < (2 : ℚ) ^ (binadeExp x + 1) := by
  have h1 : x < (2 : ℚ) ^ (Int.log 2 x + 1) := by
    exact_mod_cast Int.lt_zpow_succ_log_self (b := 2) (by norm_num) x
  have h2 : Int.log 2 x + 1 ≤ binadeExp x + 1 := by
    unfold binadeExp
    rw [abs_of_nonneg hx]
    have := le_max_left (Int.log 2 x) (-1022)
    omega
  exact lt_of_lt_of_le h1 (two_zpow_mono h2)

theorem two_zpow_split (e : ℤ) : (2 : ℚ) ^ (e + 1) = (2 : ℚ) ^ (53 : ℕ) * (2 : ℚ) ^ (e - 52) := by
  rw [← zpow_natCast, ← zpow_add₀ (by norm_num : (2 : ℚ) ≠ 0)]
  congr 1
  push_cast
  ring

theorem two_zpow_split' (e : ℤ) : (2 : ℚ) ^ e = (2 : ℚ) ^ (52 : ℕ) * (2 : ℚ) ^ (e - 52) := by
  rw [← zpow_natCast, ← zpow_add₀ (by norm_num : (2 : ℚ) ≠ 0)]
  congr 1
  push_cast
  ring

theorem round64_le_two_zpow {x : ℚ} (hx : 0 ≤ x) : round64 x ≤ (2 : ℚ) ^ (binadeExp x + 1) := by
  have hu := ulp_pos x
  have hq : x / ulp x < (2 : ℚ) ^ (53 : ℕ) := by
    rw [div_lt_iff₀ hu]
    have := lt_two_zpow_binadeExp hx
    rw [two_zpow_split] at this
    exact this
  have hfl : ⌊x / ulp x⌋ < (2 : ℤ) ^ (53 : ℕ) := by
    rw [Int.floor_lt]; exact_mod_cast hq
  have hn : roundEven (x / ulp x) ≤ (2 : ℤ) ^ (53 : ℕ) := by
    have := roundEven_le_floor_succ (x / ulp x)
    omega
  unfold round64
  rw [two_zpow_split]
  have hn' : (roundEven (x / ulp x) : ℚ) ≤ (2 : ℚ) ^ (53 : ℕ) := by exact_mod_cast hn
  exact mul_le_mul_of_nonneg_right hn' (le_of_lt hu)

theorem two_zpow_le_round64 {y : ℚ} (hy : 0 < y) (hn : -1022 ≤ Int.log 2 y) :
    (2 : ℚ) ^ binadeExp y ≤ round64 y := by
  have hu := ulp_pos y
  have hb : binadeExp y = Int.log 2 y := by
    unfold binadeExp; rw [abs_of_pos hy]; exact max_eq_left hn
  have hlo : (2 : ℚ) ^ binadeExp y ≤ y := by
    rw [hb]; exact_mod_cast Int.zpow_log_le_self (b := 2) (by norm_num) hy
  have hq : (2 : ℚ) ^ (52 : ℕ) ≤ y / ulp y := by
    rw [le_div_iff₀ hu]
    rw [two_zpow_split'] at hlo
    exact hlo
  have hfl : (2 : ℤ) ^ (52 : ℕ) ≤ ⌊y / ulp y⌋ := by
    rw [Int.le_floor]; exact_mod_cast hq
  have hr : (2 : ℤ) ^ (52 : ℕ) ≤ roundEven (y / ulp y) := le_trans hfl (floor_le_roundEven _)
  unfold round64
  rw [two_zpow_split']
  have hr' : (2 : ℚ) ^ (52 : ℕ) ≤ (roundEven (y / ulp y) : ℚ) := by exact_mod_cast hr
  exact mul_le_mul_of_nonneg_right hr' (le_of_lt hu)

/-- Rounding to binary64 is monotone (on non-negative reals). -/
theorem round64_mono {x y : ℚ} (hx : 0 ≤ x) (hxy : x ≤ y) : round64 x ≤ round64 y := by
  rcases eq_or_lt_of_le hx with h0 | hpos
  · rw [← h0, round64_zero]; exact round64_nonneg (le_trans hx hxy)
  have hy : 0 < y := lt_of_lt_of_le hpos hxy
  have hlog : Int.log 2 x ≤ Int.log 2 y := Int.log_mono_right hpos hxy
  have hbe : binadeExp x ≤ binadeExp y := by
    unfold binadeExp
    rw [abs_of_pos hpos, abs_of_pos hy]
    exact max_le_max hlog (le_refl _)
  rcases eq_or_lt_of_le hbe with heq | hlt
  · have hu : ulp x = ulp y := by unfold ulp; rw [heq]
    unfold round64
    rw [hu]
    have hq : x / ulp y ≤ y / ulp y := div_le_div_of_nonneg_right hxy (le_of_lt (ulp_pos y))
    have := roundEven_mono hq
    exact mul_le_mul_of_nonneg_right (by exact_mod_cast this) (le_of_lt (ulp_pos y))
  · have hny : -1022 ≤ Int.log 2 y := by
      by_contra hcon
      have h1 : binadeExp y = -1022 := by
        unfold binadeExp; rw [abs_of_pos hy]; exact max_eq_right (by omega)
      have h2 : -1022 ≤ binadeExp x := by unfold binadeExp; exact le_max_right _ _
      omega
    calc round64 x ≤ (2 : ℚ) ^ (binadeExp x + 1) := round64_le_two_zpow hx
      _ ≤ (2 : ℚ) ^ binadeExp y := two_zpow_mono (by omega)
      _ ≤ round64 y := two_zpow_le_round64 hy hny

theorem binadeExp_of_bounds {x : ℚ} {e : ℤ} (he : -1022 ≤ e) (hlo : (2 : ℚ) ^ e ≤ |x|)
    (hhi : |x| < (2 : ℚ) ^ (e + 1)) : binadeExp x = e := by
  have hpos : (0 : ℚ) < |x| := lt_of_lt_of_le (by positivity) hlo
  unfold binadeExp
  rw [log_eq_of_bounds hpos hlo hhi]
  exact max_eq_left he

theorem binadeExp_subnormal {x : ℚ} (hpos : 0 < |x|) (hhi : |x| < (2 : ℚ) ^ (-1022 : ℤ)) :
    binadeExp x = -1022 := by
  have h : Int.log 2 |x| < -1022 :=
    (Int.lt_zpow_iff_log_lt (by norm_num) hpos).mp (by exact_mod_cast hhi)
  unfold binadeExp
  exact max_eq_right (le_of_lt h)

/-- Rounding computed from the binade of `x`. -/
theorem round64_eq_of_bounds {x : ℚ} {e n : ℤ} (he : -1022 ≤ e) (hlo : (2 : ℚ) ^ e ≤ |x|)
    (hhi : |x| < (2 : ℚ) ^ (e + 1)) (hn : roundEven (x / (2 : ℚ) ^ (e - 52)) = n) :
    round64 x = (n : ℚ) * (2 : ℚ) ^ (e - 52) := by
  unfold round64 ulp
  rw [binadeExp_of_bounds he hlo hhi, hn]

theorem round64_two_zpow {e : ℤ} (he : -1022 ≤ e) : round64 ((2 : ℚ) ^ e) = (2 : ℚ) ^ e := by
  have hpos : (0 : ℚ) < (2 : ℚ) ^ e := by positivity
  have hq : (2 : ℚ) ^ e / (2 : ℚ) ^ (e - 52) = (((2 : ℤ) ^ (52 : ℕ) : ℤ) : ℚ) := by
    rw [div_eq_iff (by positivity)]
    push_cast
    exact two_zpow_split' e
  rw [round64_eq_of_bounds (n := (2 : ℤ) ^ (52 : ℕ)) he (by rw [abs_of_pos hpos])
    (by rw [abs_of_pos hpos]; exact zpow_lt_zpow_right₀ (by norm_num) (by omega))
    (by rw [hq, roundEven_intCast])]
  push_cast
  exact (two_zpow_split' e).symm

/-- Halving commutes with rounding when the half is still a normal number. -/
theorem round64_half {x : ℚ} (hx : (2 : ℚ) ^ (-1021 : ℤ) ≤ |x|) :
    round64 (x / 2) = round64 x / 2 := by
  have hpos : (0 : ℚ) < |x| := lt_of_lt_of_le (by positivity) hx
  have he : -1021 ≤ Int.log 2 |x| :=
    (Int.zpow_le_iff_le_log (by norm_num) hpos).mp (by exact_mod_cast hx)
  have hlo : (2 : ℚ) ^ Int.log 2 |x| ≤ |x| := by
    exact_mod_cast Int.zpow_log_le_self (b := 2) (by norm_num) hpos
  have hhi : |x| < (2 : ℚ) ^ (Int.log 2 |x| + 1) := by
    exact_mod_cast Int.lt_zpow_succ_log_self (b := 2) (by norm_num) |x|
  have hb : binadeExp x = Int.log 2 |x| := binadeExp_of_bounds (by omega) hlo hhi
  have h2 : (2 : ℚ) ^ (Int.log 2 |x| - 1) * 2 = (2 : ℚ) ^ Int.log 2 |x| := by
    rw [← zpow_add_one₀ (by norm_num : (2 : ℚ) ≠ 0)]; congr 1; ring
  have h3 : (2 : ℚ) ^ (Int.log 2 |x| - 1 + 1) = (2 : ℚ) ^ (Int.log 2 |x| + 1) / 2 := by
    rw [zpow_add_one₀ (by norm_num : (2 : ℚ) ≠ 0) (Int.log 2 |x|)]
    rw [show Int.log 2 |x| - 1 + 1 = Int.log 2 |x| by ring]
    ring
  have habs : |x / 2| = |x| / 2 := by rw [abs_div]; norm_num
  have hb' : binadeExp (x / 2) = Int.log 2 |x| - 1 := by
    apply binadeExp_of_bounds (by omega)
    · rw [habs]; linarith
    · rw [habs, h3]; linarith
  have hu : ulp (x / 2) = ulp x / 2 := by
    unfold ulp
    rw [hb', hb, show Int.log 2 |x| - 1 - 52 = (Int.log 2 |x| - 52) - 1 by ring,
      zpow_sub_one₀ (by norm_num : (2 : ℚ) ≠ 0)]
    ring
  unfold round64
  rw [hu]
  have hq : x / 2 / (ulp x / 2) = x / ulp x := by
    have := ulp_pos x
    field_simp
  rw [hq]
  ring

theorem round64_double {x : ℚ} (hx : (2 : ℚ) ^ (-1022 : ℤ) ≤ |x|) :
    round64 (2 * x) = 2 * round64 x := by
  have h : (2 : ℚ) ^ (-1021 : ℤ) ≤ |2 * x| := by
    rw [abs_mul, abs_of_pos (by norm_num : (0 : ℚ) < 2),
      show (-1021 : ℤ) = -1022 + 1 by norm_num, zpow_add_one₀ (by norm_num : (2 : ℚ) ≠ 0)]
    linarith
  have := round64_half h
  rw [show 2 * x / 2 = x by ring] at this
  rw [this]; ring

theorem roundEven_quot_le {x : ℚ} (hx : 0 ≤ x) : roundEven (x / ulp x) ≤ (2 : ℤ) ^ (53 : ℕ) := by
  have hu := ulp_pos x
  have hq : x / ulp x < (2 : ℚ) ^ (53 : ℕ) := by
    rw [div_lt_iff₀ hu]
    have := lt_two_zpow_binadeExp hx
    rw [two_zpow_split] at this
    exact this
  have hfl : ⌊x / ulp x⌋ < (2 : ℤ) ^ (53 : ℕ) := by
    rw [Int.floor_lt]; exact_mod_cast hq
  have := roundEven_le_floor_succ (x / ulp x)
  omega

/-- A rounded value is a binary64 number: rounding it again changes nothing. -/
theorem round64_idem {x : ℚ} (hx : 0 ≤ x) : round64 (round64 x) = round64 x := by
  rcases eq_or_lt_of_le hx with h0 | hpos
  · rw [← h0, round64_zero, round64_zero]
  have hu := ulp_pos x
  have hble : -1022 ≤ binadeExp x := by unfold binadeExp; exact le_max_right _ _
  have hn0 : (0 : ℤ) ≤ roundEven (x / ulp x) :=
    le_trans (Int.floor_nonneg.mpr (div_nonneg hx (le_of_lt hu))) (floor_le_roundEven _)
  have hn53 := roundEven_quot_le hx
  have hr : round64 x = (roundEven (x / ulp x) : ℚ) * (2 : ℚ) ^ (binadeExp x - 52) := rfl
  rcases eq_or_lt_of_le hn0 with hz | hnpos
  · rw [hr, ← hz]; simp [round64_zero]
  rcases eq_or_lt_of_le hn53 with h53 | hlt53
  · have : round64 x = (2 : ℚ) ^ (binadeExp x + 1) := by
      rw [hr, h53, two_zpow_split]; push_cast; rfl
    rw [this, round64_two_zpow (by omega)]
  · have hrpos : 0 < round64 x := by
      rw [hr]; exact mul_pos (by exact_mod_cast hnpos) (by positivity)
    have hrhi : round64 x < (2 : ℚ) ^ (binadeExp x + 1) := by
      rw [hr, two_zpow_split]
      exact mul_lt_mul_of_pos_right (by exact_mod_cast hlt53) (by positivity)
    have hbe : binadeExp (round64 x) = binadeExp x := by
      by_cases h52 : (2 : ℤ) ^ (52 : ℕ) ≤ roundEven (x / ulp x)
      · apply binadeExp_of_bounds hble
        · rw [abs_of_pos hrpos, hr, two_zpow_split']
          exact mul_le_mul_of_nonneg_right (by exact_mod_cast h52) (by positivity)
        · rw [abs_of_pos hrpos]; exact hrhi
      · have hsub : Int.log 2 x < -1022 := by
          by_contra hcon
          have hbx : binadeExp x = Int.log 2 x := by
            unfold binadeExp; rw [abs_of_pos hpos]; exact max_eq_left (by omega)
          have hlo : (2 : ℚ) ^ binadeExp x ≤ x := by
            rw [hbx]; exact_mod_cast Int.zpow_log_le_self (b := 2) (by norm_num) hpos
          have hq : (2 : ℚ) ^ (52 : ℕ) ≤ x / ulp x := by
            rw [le_div_iff₀ hu]
            rw [two_zpow_split'] at hlo
            exact hlo
          have hfl : (2 : ℤ) ^ (52 : ℕ) ≤ ⌊x / ulp x⌋ := by
            rw [Int.le_floor]; exact_mod_cast hq
          exact h52 (le_trans hfl (floor_le_roundEven _))
        have hbx : binadeExp x = -1022 := by
          unfold binadeExp; rw [abs_of_pos hpos]; exact max_eq_right (le_of_lt hsub)
        rw [hbx]
        apply binadeExp_subnormal
        · rw [abs_of_pos hrpos]; exact hrpos
        · rw [abs_of_pos hrpos, hr, hbx, two_zpow_split' (-1022)]
          exact mul_lt_mul_of_pos_right (by exact_mod_cast not_le.mp h52) (by positivity)
    have hulp : ulp (round64 x) = ulp x := by
      show (2 : ℚ) ^ (binadeExp (round64 x) - 52) = (2 : ℚ) ^ (binadeExp x - 52)
      rw [hbe]
    have hr' : round64 x = (roundEven (x / ulp x) : ℚ) * ulp x := rfl
    have hq : round64 x / ulp (round64 x) = ((roundEven (x / ulp x) : ℤ) : ℚ) := by
      rw [hulp, eq_comm, eq_div_iff (ne_of_gt hu)]
      exact hr'.symm
    show (roundEven (round64 x / ulp (round64 x)) : ℚ) * ulp (round64 x) = round64 x
    rw [hq, roundEven_intCast, hulp]
    exact hr'.symm

theorem roundEven_of_low {q : ℚ} {f : ℤ} (h1 : (f : ℚ) ≤ q) (h2 : q < f + 1 / 2) :
    roundEven q = f := by
  have hf : ⌊q⌋ = f := Int.floor_eq_iff.mpr ⟨h1, by linarith⟩
  unfold roundEven
  rw [hf, if_pos (by linarith)]

theorem roundEven_of_high {q : ℚ} {f : ℤ} (h1 : (f : ℚ) + 1 / 2 < q) (h2 : q < f + 1) :
    roundEven q = f + 1 := by
  have hf : ⌊q⌋ = f := Int.floor_eq_iff.mpr ⟨by linarith, h2⟩
  unfold roundEven
  rw [hf, if_neg (by linarith), if_pos (by linarith)]

theorem roundEven_of_tie_even {q : ℚ} {f : ℤ} (h : q = f + 1 / 2) (he : f % 2 = 0) :
    roundEven q = f := by
  have hf : ⌊q⌋ = f := Int.floor_eq_iff.mpr ⟨by linarith, by linarith⟩
  unfold roundEven
  rw [hf, if_neg (by linarith), if_neg (by linarith), if_pos he]

theorem roundEven_of_tie_odd {q : ℚ} {f : ℤ} (h : q = f + 1 / 2) (ho : f % 2 = 1) :
    roundEven q = f + 1 := by
  have hf : ⌊q⌋ = f := Int.floor_eq_iff.mpr ⟨by linarith, by linarith⟩
  unfold roundEven
  rw [hf, if_neg (by linarith), if_neg (by linarith), if_neg (by omega)]

theorem round64_of_exact {x : ℚ} {e n : ℤ} (he : -1022 ≤ e) (hlo : (2 : ℚ) ^ e ≤ |x|)
    (hhi : |x| < (2 : ℚ) ^ (e + 1)) (hq : x / (2 : ℚ) ^ (e - 52) = (n : ℚ)) : round64 x = x := by
  rw [round64_eq_of_bounds he hlo hhi (by rw [hq, roundEven_intCast]), ← hq]
  field_simp

theorem smooth64_of_le {p v : ℚ} (h : p ≤ v) :
    smooth64 p v = round64 (round64 (v + p) / 2) := by
  unfold smooth64
  rw [if_neg (not_lt.mpr h)]

theorem oddBit_frame1 : smooth64 0 oddBitMagnitude = 6755399441055747 / 2 ^ 52 := by
  rw [smooth64_of_le (by norm_num [oddBitMagnitude]), add_zero]
  have h1 : round64 oddBitMagnitude = oddBitMagnitude :=
    round64_of_exact (e := 1) (n := 6755399441055747) (by norm_num)
      (by norm_num [oddBitMagnitude, abs_of_pos]) (by norm_num [oddBitMagnitude, abs_of_pos])
      (by norm_num [oddBitMagnitude])
  rw [h1]
  have h2 : round64 (oddBitMagnitude / 2) = oddBitMagnitude / 2 :=
    round64_of_exact (e := 0) (n := 6755399441055747) (by norm_num)
      (by norm_num [oddBitMagnitude, abs_of_pos]) (by norm_num [oddBitMagnitude, abs_of_pos])
      (by norm_num [oddBitMagnitude])
  rw [h2]
  norm_num [oddBitMagnitude]

theorem oddBit_frame2 :
    smooth64 (6755399441055747 / 2 ^ 52) oddBitMagnitude = 5066549580791810 / 2 ^ 51 := by
  rw [smooth64_of_le (by norm_num [oddBitMagnitude])]
  have h1 : round64 (oddBitMagnitude + 6755399441055747 / 2 ^ 52) = 5066549580791810 / 2 ^ 50 := by
    rw [round64_eq_of_bounds (e := 2) (n := 5066549580791810) (by norm_num)
      (by norm_num [oddBitMagnitude, abs_of_pos]) (by norm_num [oddBitMagnitude, abs_of_pos])
      (roundEven_of_low (by norm_num [oddBitMagnitude]) (by norm_num [oddBitMagnitude]))]
    norm_num
  rw [h1]
  have h2 : round64 (5066549580791810 / 2 ^ 50 / 2) = 5066549580791810 / 2 ^ 50 / 2 :=
    round64_of_exact (e := 1) (n := 5066549580791810) (by norm_num)
      (by norm_num [abs_of_pos]) (by norm_num [abs_of_pos]) (by norm_num)
  rw [h2]
  norm_num

theorem oddBit_frame3 :
    smooth64 (5066549580791810 / 2 ^ 51) oddBitMagnitude = 5910974510923778 / 2 ^ 51 := by
  rw [smooth64_of_le (by norm_num [oddBitMagnitude])]
  have h1 : round64 (oddBitMagnitude + 5066549580791810 / 2 ^ 51) = 5910974510923778 / 2 ^ 50 := by
    rw [round64_eq_of_bounds (e := 2) (n := 5910974510923778) (by norm_num)
      (by norm_num [oddBitMagnitude, abs_of_pos]) (by norm_num [oddBitMagnitude, abs_of_pos])
      (roundEven_of_tie_even (by norm_num [oddBitMagnitude]) (by norm_num))]
    norm_num
  rw [h1]
  have h2 : round64 (5910974510923778 / 2 ^ 50 / 2) = 5910974510923778 / 2 ^ 50 / 2 :=
    round64_of_exact (e := 1) (n := 5910974510923778) (by norm_num)
      (by norm_num [abs_of_pos]) (by norm_num [abs_of_pos]) (by norm_num)
  rw [h2]
  norm_num

theorem oddBit_closed_form :
    round64 (oddBitMagnitude * (1 - (1 / 2) ^ 3)) = 5910974510923779 / 2 ^ 51 := by
  rw [round64_eq_of_bounds (e := 1) (n := 5910974510923778 + 1) (by norm_num)
    (by norm_num [oddBitMagnitude, abs_of_pos]) (by norm_num [oddBitMagnitude, abs_of_pos])
    (roundEven_of_high (by norm_num [oddBitMagnitude]) (by norm_num [oddBitMagnitude]))]
  norm_num

/-- For a binary64 number `V` that is zero or at least `2 ^ (-1021)`: `V / 2` and
`2 * V` are binary64 numbers, and the second frame is `0.75 * V` rounded. -/
theorem double_facts {V : ℚ} (hd : round64 V = V) (hV : V = 0 ∨ (2 : ℚ) ^ (-1021 : ℤ) ≤ V) :
    round64 (V / 2) = V / 2 ∧ round64 (2 * V) = 2 * V ∧
      round64 (round64 (V + V / 2) / 2) = round64 (0.75 * V) := by
  rcases hV with h0 | hn
  · subst h0
    norm_num [round64_zero]
  have hpos : 0 < V := lt_of_lt_of_le (by positivity) hn
  have habs : |V| = V := abs_of_pos hpos
  have hy : (2 : ℚ) ^ (-1021 : ℤ) ≤ V + V / 2 := le_trans hn (by linarith)
  have hy0 : 0 ≤ V + V / 2 := by linarith
  refine ⟨?_, ?_, ?_⟩
  · rw [round64_half (by rw [habs]; exact hn), hd]
  · rw [round64_double (by rw [habs]; exact le_trans (two_zpow_mono (by norm_num)) hn), hd]
  · have hs : (2 : ℚ) ^ (-1021 : ℤ) ≤ round64 (V + V / 2) := by
      have := round64_mono (by positivity : (0 : ℚ) ≤ (2 : ℚ) ^ (-1021 : ℤ)) hy
      rwa [round64_two_zpow (by norm_num)] at this
    have hs0 : 0 ≤ round64 (V + V / 2) := round64_nonneg hy0
    rw [round64_half (by rw [abs_of_nonneg hs0]; exact hs), round64_idem hy0,
      show (0.75 : ℚ) * V = (V + V / 2) / 2 by norm_num; ring,
      round64_half (by rw [abs_of_nonneg hy0]; exact hy)]

theorem smooth64_rise_step {V p : ℚ} (hd : round64 V = V) (hd2 : round64 (2 * V) = 2 * V)
    (hp0 : 0 ≤ p) (hpV : p ≤ V) :
    smooth64 p V = round64 (round64 (V + p) / 2) ∧ 0 ≤ smooth64 p V ∧ smooth64 p V ≤ V := by
  have hs0 : 0 ≤ round64 (V + p) := round64_nonneg (by linarith)
  have hs2 : round64 (V + p) ≤ 2 * V := by
    have := round64_mono (by linarith : (0 : ℚ) ≤ V + p) (by linarith : V + p ≤ 2 * V)
    rwa [hd2] at this
  rw [smooth64_of_le hpV]
  refine ⟨rfl, round64_nonneg (by linarith), ?_⟩
  have := round64_mono (by linarith : (0 : ℚ) ≤ round64 (V + p) / 2)
    (by linarith : round64 (V + p) / 2 ≤ V)
  rwa [hd] at this

/-! ## Clamped magnitudes -/

theorem clampedMagnitude_le (L : Lib) (maxValue : ℚ) (c : ℚ × ℚ) :
    clampedMagnitude L maxValue c ≤ maxValue :=
  min_le_left _ _

theorem clampedMagnitude_nonneg (L : Lib) (maxValue : ℚ) (hmax : 0 ≤ maxValue) (c : ℚ × ℚ) :
    0 ≤ clampedMagnitude L maxValue c :=
  le_min hmax (abs_nonneg _)

theorem clampedMagnitude_zero (L : Lib) (hS : L.Silent) (maxValue : ℚ) (hmax : 0 ≤ maxValue) :
    clampedMagnitude L maxValue (0, 0) = 0 := by
  simp only [clampedMagnitude, mul_zero, add_zero, hS.2, abs_zero]
  exact min_eq_right hmax

theorem bandMagnitudes_getElem? (L : Lib) (maxValue : ℚ) (fftOutput : List (ℚ × ℚ)) (i : Nat)
    (hi : i < spectrumSize) :
    (bandMagnitudes L maxValue fftOutput)[i]? =
      (fftOutput[i]?).map (clampedMagnitude L maxValue) := by
  simp [bandMagnitudes, List.getElem?_take, hi]

/-! ## Byte to sample -/

theorem readSign_single (c : Char) (h1 : c ≠ '+') (h2 : c ≠ '-') :
    readSign [c] = (false, [c]) := by
  unfold readSign
  split
  · rename_i h; simp at h; exact absurd h.1 h1
  · rename_i h; simp at h; exact absurd h.1 h2
  · rfl

/-- The parser on a one-character string: a digit parses to its value, any
other character is malformed and yields `0`. -/
theorem parseFloat_single (c : Char) (bits : Nat) :
    parseFloat [c] bits =
      if c.isDigit then (((c.toNat - 48 : Nat) : ℚ), none) else (0, some ParseErr.invalid) := by
  by_cases hp : c = '+'
  · subst hp; simp [parseFloat, readSign, readDigits, Char.isDigit]
  by_cases hm : c = '-'
  · subst hm; simp [parseFloat, readSign, readDigits, Char.isDigit]
  by_cases hd : c = '.'
  · subst hd; simp [parseFloat, readSign, readDigits, Char.isDigit]
  by_cases hdig : c.isDigit = true
  · simp [parseFloat, readSign_single c hp hm, readDigits, hdig, readExponent, scale10]
  · have hparts : (match [c] with
        | '.' :: r => readDigits r 0 0
        | r => ((0 : Nat), (0 : Nat), r)) = (0, 0, [c]) := by
      split
      · rename_i h; simp at h; exact absurd h.1 hd
      · rfl
    simp [parseFloat, readSign_single c hp hm, readDigits, hdig, hparts]

set_option maxRecDepth 100000 in
theorem byteChar_toNat : ∀ b : Byte, (Char.ofNat b.val).toNat = b.val := by decide

set_option maxRecDepth 100000 in
theorem byteChar_isDigit : ∀ b : Byte,
    (Char.ofNat b.val).isDigit = (decide (48 ≤ b.val) && decide (b.val ≤ 57)) := by decide

theorem sampleOfByte_eq (b : Byte) :
    sampleOfByte b = if 48 ≤ b.val ∧ b.val ≤ 57 then ((b.val - 48 : Nat) : ℚ) else 0 := by
  unfold sampleOfByte goString
  rw [parseFloat_single, byteChar_isDigit, byteChar_toNat]
  by_cases h : 48 ≤ b.val ∧ b.val ≤ 57
  · simp [h]
  · rw [if_neg h]
    have : (decide (48 ≤ b.val) && decide (b.val ≤ 57)) = false := by
      simpa using h
    simp [this]

theorem sampleOfByte_zero : sampleOfByte 0 = 0 := by
  rw [sampleOfByte_eq]; simp

/-! ## The concrete library instance -/

theorem sampleLib_sized : sampleLib.Sized := by
  constructor
  · intro n; simp [sampleLib]
  · intro xs; simp [sampleLib]

theorem sampleLib_silent : sampleLib.Silent := by
  constructor
  · intro n
    simp [sampleLib]
  · simp [sampleLib]

/-! ## Sequences of frames and silent blocks -/

/-- Frames are run one after the other, and a property of the Display State
that every single call preserves holds after all of them. -/
theorem runFrames_inv (L : Lib) (hL : L.Sized) (Inv : List ℚ → Prop)
    (hstep : ∀ buffer maxValue aw fs aw' fs', numSamples ≤ buffer.length →
      numSamples ≤ aw.length → spectrumSize ≤ fs.length → Inv fs →
      updateSpectrumValues L buffer aw 0 maxValue fs = some (aw', fs') → Inv fs') :
    ∀ frames : List (List Byte × ℚ), (∀ f ∈ frames, numSamples ≤ f.1.length) →
      ∀ aw fs, numSamples ≤ aw.length → spectrumSize ≤ fs.length → Inv fs →
        ∃ aw' fs', runFrames L frames (aw, fs) = some (aw', fs') ∧
          aw'.length = aw.length ∧ fs'.length = fs.length ∧ Inv fs' := by
  intro frames
  induction frames with
  | nil =>
    intro _ aw fs _ _ hinv
    exact ⟨aw, fs, rfl, rfl, rfl, hinv⟩
  | cons f rest ih =>
    intro hall aw fs haw hfs hinv
    have hf : numSamples ≤ f.1.length := hall f (List.mem_cons_self _ _)
    obtain ⟨_, aw1, fs1, -, -, h3, hl1, hl2, -, -⟩ :=
      update_spec L hL f.1 aw 0 f.2 fs hf haw hfs
    have hinv1 : Inv fs1 := hstep f.1 f.2 aw fs aw1 fs1 hf haw hfs hinv h3
    obtain ⟨aw2, fs2, h4, hl3, hl4, hinv2⟩ :=
      ih (fun g hg => hall g (List.mem_cons_of_mem _ hg)) aw1 fs1 (by rw [hl1]; exact haw)
        (by rw [hl2]; exact hfs) hinv1
    refine ⟨aw2, fs2, ?_, by rw [hl3, hl1], by rw [hl4, hl2], hinv2⟩
    simp only [runFrames, List.foldlM_cons, h3, Option.bind_eq_bind, Option.some_bind]
    exact h4

/-- One call keeps every band non-negative. -/
theorem update_nonneg (L : Lib) (buffer : List Byte) (maxValue : ℚ) (aw fs aw' fs' : List ℚ)
    (hL : L.Sized) (hbuf : numSamples ≤ buffer.length) (haw : numSamples ≤ aw.length)
    (hfs : spectrumSize ≤ fs.length) (hinv : ∀ x ∈ fs, (0 : ℚ) ≤ x)
    (h : updateSpectrumValues L buffer aw 0 maxValue fs = some (aw', fs')) :
    ∀ x ∈ fs', (0 : ℚ) ≤ x := by
  obtain ⟨_, aw1, fs1, -, -, h3, -, -, hlow, hhigh⟩ :=
    update_spec L hL buffer aw 0 maxValue fs hbuf haw hfs
  have e : fs1 = fs' := (Prod.mk.inj (Option.some.inj (h3.symm.trans h))).2
  subst e
  intro x hx
  obtain ⟨i, hi⟩ := List.mem_iff_getElem?.mp hx
  rcases lt_or_le i spectrumSize with hlt | hge
  · obtain ⟨c, prev, -, hp, hn⟩ := hlow i hlt
    have hx' : x = smooth prev (clampedMagnitude L maxValue c) :=
      Option.some.inj (hi.symm.trans hn)
    rw [hx']
    exact smooth_nonneg _ _ (hinv prev (List.mem_iff_getElem?.mpr ⟨i, hp⟩))
  · exact hinv x (List.mem_iff_getElem?.mpr ⟨i, (hhigh i hge).symm.trans hi⟩)

theorem silent_samples (aw : List ℚ) (haw : aw.length = numSamples) :
    forRange numSamples (sampleStep silentBlock) aw = some (List.replicate numSamples 0) := by
  have hb : numSamples ≤ silentBlock.length := by simp [silentBlock]
  obtain ⟨aw1, h1, hlen, hlow, -⟩ :=
    sampleLoop_spec silentBlock aw numSamples hb (le_of_eq haw.symm)
  rw [h1]
  refine congrArg some ?_
  rw [List.eq_replicate_iff]
  refine ⟨by rw [hlen, haw], ?_⟩
  intro x hx
  obtain ⟨i, hi⟩ := List.mem_iff_getElem?.mp hx
  have hil : i < aw1.length := by
    by_contra hcon
    rw [List.getElem?_eq_none (not_lt.mp hcon)] at hi
    exact Option.noConfusion hi
  have hin : i < numSamples := by rw [← haw, ← hlen]; exact hil
  have hib : i < silentBlock.length := lt_of_lt_of_le hin hb
  have h2 := hlow i hin hib
  have h3 : silentBlock[i] = 0 := by simp [silentBlock]
  rw [h3, sampleOfByte_zero] at h2
  exact Option.some.inj (hi.symm.trans h2)

theorem silent_window (L : Lib) (hL : L.Sized) (n : Nat) :
    windowApply (List.replicate n 0) L.blackman = some (List.replicate n 0) := by
  obtain ⟨w, hw, hlen⟩ := windowApply_sized L hL (List.replicate n 0)
  rw [hw]
  refine congrArg some ?_
  have hc : (L.blackman (List.replicate n (0 : ℚ)).length).length = n := by
    rw [hL.1]; simp
  have hweq : w = List.zipWith (· * ·) (List.replicate n (0 : ℚ))
      (L.blackman (List.replicate n (0 : ℚ)).length) ++
      (List.replicate n (0 : ℚ)).drop (L.blackman (List.replicate n (0 : ℚ)).length).length := by
    have := hw
    simp only [windowApply] at this
    split_ifs at this with hle
    exact (Option.some.inj this).symm
  rw [List.eq_replicate_iff]
  refine ⟨by rw [hlen]; simp, ?_⟩
  intro x hx
  rw [hweq, List.mem_append] at hx
  rcases hx with hx | hx
  · obtain ⟨i, hi⟩ := List.mem_iff_getElem?.mp hx
    rw [List.getElem?_zipWith] at hi
    cases ha : (List.replicate n (0 : ℚ))[i]? with
    | none => rw [ha] at hi; simp at hi
    | some a =>
      have ha0 : a = 0 := by
        have := List.mem_iff_getElem?.mpr ⟨i, ha⟩
        exact (List.mem_replicate.mp this).2
      rw [ha] at hi
      cases hb : (L.blackman (List.replicate n (0 : ℚ)).length)[i]? with
      | none => rw [hb] at hi; simp at hi
      | some b =>
        rw [hb] at hi
        simp [ha0] at hi
        exact hi.symm
  · exact (List.mem_replicate.mp (List.mem_of_mem_drop hx)).2

/-- One call on the all-zero block: the windowed block is all zero and every
band is updated with `val = 0`. -/
theorem silent_update (L : Lib) (hL : L.Sized) (hS : L.Silent) (aw fs : List ℚ) (sr : Int)
    (maxValue : ℚ) (hmax : 0 ≤ maxValue) (haw : aw.length = numSamples)
    (hfs : spectrumSize ≤ fs.length) :
    ∃ fs', updateSpectrumValues L silentBlock aw sr maxValue fs =
        some (List.replicate numSamples 0, fs') ∧
      fs'.length = fs.length ∧
      (∀ i, i < spectrumSize → ∀ p, fs[i]? = some p → fs'[i]? = some (smooth p 0)) := by
  have hb : numSamples ≤ silentBlock.length := by simp [silentBlock]
  obtain ⟨aw1, aw', fs', h1, h2, h3, -, hlen, hlow, -⟩ :=
    update_spec L hL silentBlock aw sr maxValue fs hb (le_of_eq haw.symm) hfs
  have e1 : aw1 = List.replicate numSamples 0 :=
    Option.some.inj (h1.symm.trans (silent_samples aw haw))
  rw [e1] at h2
  have e2 : aw' = List.replicate numSamples 0 :=
    Option.some.inj (h2.symm.trans (silent_window L hL numSamples))
  rw [e2] at h3 hlow
  refine ⟨fs', h3, hlen, ?_⟩
  intro i hi p hp
  obtain ⟨c, prev, hc, hprev, hn⟩ := hlow i hi
  rw [hS.1] at hc
  have hc0 : c = (0, 0) :=
    (List.mem_replicate.mp (List.mem_iff_getElem?.mpr ⟨i, hc⟩)).2
  have hpp : prev = p := Option.some.inj (hprev.symm.trans hp)
  rw [hn, hc0, hpp, clampedMagnitude_zero L hS maxValue hmax]

/-- The same all-zero block on `k` consecutive frames: band `i` goes through `k`
smoothing updates with `val = 0`. -/
theorem silent_run (L : Lib) (hL : L.Sized) (hS : L.Silent) (maxValue : ℚ)
    (hmax : 0 ≤ maxValue) (i : Nat) (hi : i < spectrumSize) :
    ∀ (k : Nat) (aw fs : List ℚ) (p : ℚ), aw.length = numSamples → spectrumSize ≤ fs.length →
      fs[i]? = some p →
      ∃ aw' fs', runFrames L (List.replicate k (silentBlock, maxValue)) (aw, fs) =
          some (aw', fs') ∧
        fs'[i]? = some ((List.replicate k (0 : ℚ)).foldl smooth p) := by
  intro k
  induction k with
  | zero =>
    intro aw fs p _ _ hp
    exact ⟨aw, fs, rfl, by simpa using hp⟩
  | succ k ih =>
    intro aw fs p haw hfs hp
    obtain ⟨fs1, h1, hlen1, hval⟩ := silent_update L hL hS aw fs 0 maxValue hmax haw hfs
    obtain ⟨aw2, fs2, h2, hv2⟩ :=
      ih (List.replicate numSamples 0) fs1 (smooth p 0) (by simp)
        (by rw [hlen1]; exact hfs) (hval i hi p hp)
    refine ⟨aw2, fs2, ?_, ?_⟩
    · rw [List.replicate_succ]
      simp only [runFrames, List.foldlM_cons, h1, Option.bind_eq_bind, Option.some_bind]
      exact h2
    · rw [hv2, List.replicate_succ, List.foldl_cons]

/-! ## The frame loop -/

theorem readInto_nil (buf : List Byte) : readInto buf [] = buf := by
  simp [readInto]

/-- The iteration of `play` on a frame without file drop whose read returns
`io.EOF` while playing: `isPlaying` becomes false, and the call of
`updateSpectrumValues`, the `p.Write` and the drawing of the bars still happen. -/
theorem playStep_eof (L : Lib) (fr : Frame) (st : PlayState) (aw fs : List ℚ)
    (hplay : st.isPlaying = true) (hdrop : fr.dropped = none)
    (heof : fr.readErr = some ReadErr.eof)
    (hu : updateSpectrumValues L (readInto st.buf fr.readBytes) st.audioWave fr.sampleRate
      ((toInt32 fr.screenHeight : Int) : ℚ) st.freqSpectrum = some (aw, fs)) :
    playStep L fr st =
      Except.ok ⟨⟨readInto st.buf fr.readBytes, aw, fs, toInt32 fr.screenWidth,
        toInt32 fr.screenHeight, false, st.nowPlayingText⟩,
        View.spectrum fs st.nowPlayingText, some (readInto st.buf fr.readBytes)⟩ := by
  simp [playStep, dropStep, hdrop, hplay, readCheck, heof, hu]

/-! ## Claims -/

/-- C1. For every band index `i < 80`, one call of `updateSpectrumValues`
replaces `freqSpectrum[i] = prev` by `max (prev - 8) 0` when `prev > val` and by
`(val + prev) / 2` otherwise, where `val` is the clamped magnitude of bin `i` of
the transform computed in the same call; bands from index 80 on are untouched,
and the new value of band `i` is the same for any other Display State that
agrees with this one at index `i`. -/
theorem updateSpectrumValues_band_rule (L : Lib) (hL : L.Sized) (buffer : List Byte)
    (audioWave : List ℚ) (sr : Int) (maxValue : ℚ) (freqSpectrum : List ℚ)
    (hbuf : numSamples ≤ buffer.length) (haw : numSamples ≤ audioWave.length)
    (hfs : spectrumSize ≤ freqSpectrum.length) :
    ∃ aw' fs', updateSpectrumValues L buffer audioWave sr maxValue freqSpectrum = some (aw', fs') ∧
      fs'.length = freqSpectrum.length ∧
      (∀ i, i < 80 → ∃ c prev, (L.fftReal aw')[i]? = some c ∧ freqSpectrum[i]? = some prev ∧
        fs'[i]? = some
          (if prev > min maxValue |L.sqrt (c.1 * c.1 + c.2 * c.2)| then max (prev - 8) 0
           else (min maxValue |L.sqrt (c.1 * c.1 + c.2 * c.2)| + prev) / 2) ∧
        ∀ other : List ℚ, spectrumSize ≤ other.length → other[i]? = freqSpectrum[i]? →
          ∃ fs2, updateSpectrumValues L buffer audioWave sr maxValue other = some (aw', fs2) ∧
            fs2[i]? = fs'[i]?) ∧
      (∀ i, 80 ≤ i → fs'[i]? = freqSpectrum[i]?) := by
  obtain ⟨aw1, aw', fs', h1, h2, h3, -, hlen, hlow, hhigh⟩ :=
    update_spec L hL buffer audioWave sr maxValue freqSpectrum hbuf haw hfs
  refine ⟨aw', fs', h3, hlen, ?_, hhigh⟩
  intro i hi
  obtain ⟨c, prev, hc, hp, hn⟩ := hlow i hi
  refine ⟨c, prev, hc, hp, ?_, ?_⟩
  · rw [hn]; simp only [smooth, clampedMagnitude, peakFalloff]
  · intro other hother hagree
    obtain ⟨bw1, bw', fs2, g1, g2, g3, -, -, glow, -⟩ :=
      update_spec L hL buffer audioWave sr maxValue other hbuf haw hother
    have e1 : bw1 = aw1 := Option.some.inj (g1.symm.trans h1)
    subst e1
    have e2 : bw' = aw' := Option.some.inj (g2.symm.trans h2)
    subst e2
    refine ⟨fs2, g3, ?_⟩
    obtain ⟨c2, prev2, hc2, hp2, hn2⟩ := glow i hi
    have ec : c2 = c := Option.some.inj (hc2.symm.trans hc)
    have ep : prev2 = prev := Option.some.inj (hp2.symm.trans (hagree.trans hp))
    rw [hn2, hn, ec, ep]

/-- Witness of C1: the first call of `play`, on a silent block at height 450. -/
theorem updateSpectrumValues_band_rule_witness :
    numSamples ≤ silentBlock.length ∧
      ∃ aw' fs', updateSpectrumValues sampleLib silentBlock initState.audioWave 44100 450
          initState.freqSpectrum = some (aw', fs') ∧ fs'.length = 80 := by
  obtain ⟨aw', fs', h, hlen, -, -⟩ :=
    updateSpectrumValues_band_rule sampleLib sampleLib_sized silentBlock initState.audioWave
      44100 450 initState.freqSpectrum (by simp [silentBlock]) (by simp [initState])
      (by simp [initState])
  exact ⟨by simp [silentBlock], aw', fs', h, by rw [hlen]; simp [initState, spectrumSize]⟩

/-- C2. Monotonic decay: from any `prev0 > 0`, `k` consecutive applications of
the smoothing update with clamped magnitude `val = 0` leave exactly
`max (prev0 - k * 8) 0`, and `peakFalloff` is that `8`. -/
theorem smoothing_monotonic_decay (prev0 : ℚ) (h : 0 < prev0) (k : ℕ) :
    (List.replicate k (0 : ℚ)).foldl smooth prev0 = max (prev0 - k * 8) 0 ∧
      peakFalloff = 8 :=
  ⟨decay_spec k prev0 (le_of_lt h), rfl⟩

/-- Witness of C2 at `prev0 = 20`, `k = 2`: the value left is `4`. -/
theorem smoothing_monotonic_decay_witness :
    (0 : ℚ) < 20 ∧ (List.replicate 2 (0 : ℚ)).foldl smooth 20 = 4 :=
  ⟨by norm_num, by
    have h := (smoothing_monotonic_decay 20 (by norm_num) 2).1
    rw [h]; norm_num⟩

/-- C3 fails as stated: for the `float64` magnitude `V = 0x1.8000000000003p+1` the
second update gives `0x1.2000000000002p+1`, which is not the exact product
`0.75 * V`, and the third gives `0x1.5000000000002p+1`, which is neither
`V * (1 - 2 ^ (-3))` nor that product rounded to `float64`
(`0x1.5000000000003p+1`). -/
theorem rise_closed_form_fails :
    0 ≤ oddBitMagnitude ∧ round64 oddBitMagnitude = oddBitMagnitude ∧
    smooth64 (smooth64 0 oddBitMagnitude) oddBitMagnitude = 5066549580791810 / 2 ^ 51 ∧
    (5066549580791810 / 2 ^ 51 : ℚ) ≠ 0.75 * oddBitMagnitude ∧
    (List.replicate 3 oddBitMagnitude).foldl smooth64 0 = 5910974510923778 / 2 ^ 51 ∧
    (5910974510923778 / 2 ^ 51 : ℚ) ≠ oddBitMagnitude * (1 - (1 / 2) ^ 3) ∧
    (5910974510923778 / 2 ^ 51 : ℚ) ≠ round64 (oddBitMagnitude * (1 - (1 / 2) ^ 3)) := by
  refine ⟨by norm_num [oddBitMagnitude], ?_, ?_, by norm_num [oddBitMagnitude], ?_,
    by norm_num [oddBitMagnitude], ?_⟩
  · exact round64_of_exact (e := 1) (n := 6755399441055747) (by norm_num)
      (by norm_num [oddBitMagnitude, abs_of_pos]) (by norm_num [oddBitMagnitude, abs_of_pos])
      (by norm_num [oddBitMagnitude])
  · rw [oddBit_frame1, oddBit_frame2]
  · simp only [List.replicate, List.foldl_cons, List.foldl_nil]
    rw [oddBit_frame1, oddBit_frame2, oddBit_frame3]
  · rw [oddBit_closed_form]; norm_num

/-- C3, amended. Rise from the initial value `0` under a constant clamped
magnitude `V`, a `float64` that is `0` or at least `2 ^ (-1021)` and below
`2 ^ 1023`: the first update gives `V / 2`; the second gives `(V + V / 2) / 2`
as `float64` computes it, which is `0.75 * V` rounded to `float64`; and after any
number `k` of updates the value is between `0` and `V`, the sum `V + value` does
not overflow, and the next update again takes the averaging branch. -/
theorem smoothing_rise_binary64 (V : ℚ) (hd : round64 V = V)
    (hV : V = 0 ∨ (2 : ℚ) ^ (-1021 : ℤ) ≤ V) (hfin : V < (2 : ℚ) ^ (1023 : ℕ)) :
    smooth64 0 V = V / 2 ∧
    smooth64 (smooth64 0 V) V = round64 (round64 (V + V / 2) / 2) ∧
    round64 (round64 (V + V / 2) / 2) = round64 (0.75 * V) ∧
    ∀ k : ℕ,
      0 ≤ (List.replicate k V).foldl smooth64 0 ∧
      (List.replicate k V).foldl smooth64 0 ≤ V ∧
      V + (List.replicate k V).foldl smooth64 0 < (2 : ℚ) ^ (1024 : ℕ) ∧
      smooth64 ((List.replicate k V).foldl smooth64 0) V =
        round64 (round64 (V + (List.replicate k V).foldl smooth64 0) / 2) := by
  obtain ⟨hhalf, hd2, h34⟩ := double_facts hd hV
  have hV0 : 0 ≤ V := by
    rcases hV with h | h
    · rw [h]
    · exact le_trans (by positivity) h
  have h1 : smooth64 0 V = V / 2 := by
    rw [(smooth64_rise_step hd hd2 (le_refl 0) hV0).1, add_zero, hd, hhalf]
  have hk : ∀ k : ℕ, 0 ≤ (List.replicate k V).foldl smooth64 0 ∧
      (List.replicate k V).foldl smooth64 0 ≤ V := by
    intro k
    induction k with
    | zero => exact ⟨le_refl 0, hV0⟩
    | succ k ih =>
      rw [List.replicate_succ', List.foldl_append]
      simp only [List.foldl_cons, List.foldl_nil]
      exact (smooth64_rise_step hd hd2 ih.1 ih.2).2
  refine ⟨h1, ?_, h34, fun k => ⟨(hk k).1, (hk k).2, ?_,
    (smooth64_rise_step hd hd2 (hk k).1 (hk k).2).1⟩⟩
  · rw [h1]
    exact (smooth64_rise_step hd hd2 (by linarith) (by linarith)).1
  · have h2 : (2 : ℚ) ^ (1024 : ℕ) = 2 * (2 : ℚ) ^ (1023 : ℕ) := by
      rw [pow_succ]; ring
    have := (hk k).2
    rw [h2]; linarith

/-- Witness of the amended C3 at `V = 450`, the default window height. -/
theorem smoothing_rise_binary64_witness :
    round64 450 = 450 ∧ smooth64 0 450 = 225 ∧
      (List.replicate 10 (450 : ℚ)).foldl smooth64 0 ≤ 450 := by
  have hd : round64 450 = 450 :=
    round64_of_exact (e := 8) (n := 7916483719987200) (by norm_num)
      (by norm_num [abs_of_pos]) (by norm_num [abs_of_pos]) (by norm_num)
  have h := smoothing_rise_binary64 450 hd
    (Or.inr (le_trans (zpow_le_one_of_nonpos₀ (by norm_num) (by norm_num)) (by norm_num)))
    (lt_of_lt_of_le (by norm_num : (450 : ℚ) < 2 ^ (9 : ℕ))
      (pow_le_pow_right₀ (by norm_num) (by norm_num)))
  refine ⟨hd, ?_, (h.2.2.2 10).2.1⟩
  rw [h.1]; norm_num

/-- C4. Band reduction: from any spectrum with at least 80 bins and any
`maxValue ≥ 0`, the magnitude loop computes exactly 80 clamped magnitudes, the
one of index `i` from bin `i`, each equal to
`min maxValue (sqrt (re * re + im * im))` and each in `[0, maxValue]`; these are
the values the bands are updated with. -/
theorem band_reduction (L : Lib) (hsqrt : ∀ x : ℚ, 0 ≤ x → 0 ≤ L.sqrt x) (maxValue : ℚ)
    (hmax : 0 ≤ maxValue) (fftOutput : List (ℚ × ℚ)) (freqSpectrum : List ℚ)
    (hbins : spectrumSize ≤ fftOutput.length) (hfs : spectrumSize ≤ freqSpectrum.length) :
    (bandMagnitudes L maxValue fftOutput).length = 80 ∧
    (∀ i, i < 80 → ∃ c, fftOutput[i]? = some c ∧
      (bandMagnitudes L maxValue fftOutput)[i]? =
        some (min maxValue (L.sqrt (c.1 ^ 2 + c.2 ^ 2)))) ∧
    (∀ v ∈ bandMagnitudes L maxValue fftOutput, 0 ≤ v ∧ v ≤ maxValue) ∧
    ∃ fs', forRange spectrumSize (bandStep L maxValue fftOutput) freqSpectrum = some fs' ∧
      ∀ i, i < 80 → ∃ prev val, freqSpectrum[i]? = some prev ∧
        (bandMagnitudes L maxValue fftOutput)[i]? = some val ∧ fs'[i]? = some (smooth prev val) := by
  refine ⟨?_, ?_, ?_, ?_⟩
  · rw [bandMagnitudes, List.length_map, List.length_take, min_eq_left hbins]; rfl
  · intro i hi
    have hib : i < fftOutput.length := lt_of_lt_of_le hi hbins
    refine ⟨fftOutput[i], List.getElem?_eq_getElem hib, ?_⟩
    rw [bandMagnitudes_getElem? L maxValue fftOutput i hi, List.getElem?_eq_getElem hib]
    simp only [Option.map_some', clampedMagnitude]
    have hnn : (0 : ℚ) ≤ fftOutput[i].1 * fftOutput[i].1 + fftOutput[i].2 * fftOutput[i].2 :=
      add_nonneg (mul_self_nonneg _) (mul_self_nonneg _)
    rw [abs_of_nonneg (hsqrt _ hnn), pow_two, pow_two]
  · intro v hv
    obtain ⟨c, -, hcv⟩ := List.mem_map.mp hv
    rw [← hcv]
    exact ⟨clampedMagnitude_nonneg L maxValue hmax c, clampedMagnitude_le L maxValue c⟩
  · obtain ⟨fs', h, -, hlow, -⟩ :=
      bandLoop_spec L maxValue fftOutput freqSpectrum spectrumSize hbins hfs
    refine ⟨fs', h, ?_⟩
    intro i hi
    have hib : i < fftOutput.length := lt_of_lt_of_le hi hbins
    have hif : i < freqSpectrum.length := lt_of_lt_of_le hi hfs
    refine ⟨freqSpectrum[i], clampedMagnitude L maxValue fftOutput[i],
      List.getElem?_eq_getElem hif, ?_, hlow i hi hib hif⟩
    rw [bandMagnitudes_getElem? L maxValue fftOutput i hi, List.getElem?_eq_getElem hib]
    rfl

/-- Witness of C4 on a spectrum of 80 equal bins `(3, 4)` at height 450. -/
theorem band_reduction_witness :
    (bandMagnitudes sampleLib 450 (List.replicate 80 (3, 4))).length = 80 ∧
      ∀ v ∈ bandMagnitudes sampleLib 450 (List.replicate 80 (3, 4)), 0 ≤ v ∧ v ≤ 450 := by
  have h := band_reduction sampleLib (fun x _ => by simp [sampleLib]) 450 (by norm_num)
    (List.replicate 80 (3, 4)) (List.replicate 80 0) (by simp [spectrumSize])
    (by simp [spectrumSize])
  exact ⟨h.1, h.2.2.1⟩

/-- C5 fails as stated: a band at 400 when the height is 100 (the window was
shrunk) is at 392 after the call, above the height. -/
theorem bars_exceed_height_after_shrink :
    ∃ aw' fs', updateSpectrumValues sampleLib silentBlock initState.audioWave 44100 100
        (List.replicate spectrumSize 400) = some (aw', fs') ∧
      fs'[0]? = some 392 ∧ ¬ ((392 : ℚ) ≤ 100) := by
  obtain ⟨fs', h, -, hv⟩ :=
    silent_update sampleLib sampleLib_sized sampleLib_silent initState.audioWave
      (List.replicate spectrumSize 400) 44100 100 (by norm_num) (by simp [initState]) (by simp)
  refine ⟨_, fs', h, ?_, by norm_num⟩
  rw [hv 0 (by norm_num [spectrumSize]) 400 (by simp [spectrumSize]),
    smooth_of_gt _ _ (by norm_num)]
  norm_num

/-- C5, amended. After `updateSpectrumValues` returns, every band `i < 80`
whose prior value was at most that frame's `maxValue` is at most `maxValue`; a
band whose prior value was above `maxValue` is lowered to `max (prev - 8) 0`. -/
theorem bars_within_height (L : Lib) (hL : L.Sized) (buffer : List Byte) (audioWave : List ℚ)
    (sr : Int) (maxValue : ℚ) (freqSpectrum : List ℚ) (hbuf : numSamples ≤ buffer.length)
    (haw : numSamples ≤ audioWave.length) (hfs : spectrumSize ≤ freqSpectrum.length) :
    ∃ aw' fs', updateSpectrumValues L buffer audioWave sr maxValue freqSpectrum = some (aw', fs') ∧
      ∀ i, i < 80 → ∃ prev next, freqSpectrum[i]? = some prev ∧ fs'[i]? = some next ∧
        (prev ≤ maxValue → next ≤ maxValue) ∧ (maxValue < prev → next = max (prev - 8) 0) := by
  obtain ⟨-, aw', fs', -, -, h3, -, -, hlow, -⟩ :=
    update_spec L hL buffer audioWave sr maxValue freqSpectrum hbuf haw hfs
  refine ⟨aw', fs', h3, ?_⟩
  intro i hi
  obtain ⟨c, prev, -, hp, hn⟩ := hlow i hi
  refine ⟨prev, _, hp, hn, ?_, ?_⟩
  · intro hle
    rcases lt_or_le (clampedMagnitude L maxValue c) prev with h | h
    · rw [smooth_of_gt _ _ h]
      have hval : 0 ≤ clampedMagnitude L maxValue c := by
        unfold clampedMagnitude at h ⊢
        rcases min_choice maxValue |L.sqrt (c.1 * c.1 + c.2 * c.2)| with hm | hm
        · rw [hm] at h
          exact absurd hle (not_le.mpr h)
        · rw [hm]
          exact abs_nonneg _
      exact max_le (by linarith) (by linarith)
    · rw [smooth_of_le _ _ h]
      have := clampedMagnitude_le L maxValue c
      linarith
  · intro hgt
    exact smooth_of_gt _ _ (lt_of_le_of_lt (clampedMagnitude_le L maxValue c) hgt)

/-- Witness of the amended C5 on a silent block at height 450. -/
theorem bars_within_height_witness :
    numSamples ≤ silentBlock.length ∧
      ∃ aw' fs', updateSpectrumValues sampleLib silentBlock initState.audioWave 44100 450
        (List.replicate spectrumSize 100) = some (aw', fs') := by
  obtain ⟨aw', fs', h, -⟩ :=
    bars_within_height sampleLib sampleLib_sized silentBlock initState.audioWave 44100 450
      (List.replicate spectrumSize 100) (by simp [silentBlock]) (by simp [initState]) (by simp)
  exact ⟨by simp [silentBlock], aw', fs', h⟩

/-- C6. Silent input end to end: the block size is 4608 and there are 80
bands; for the all-zero block of 4608 bytes and `maxValue = 450`, every clamped
band magnitude of the call is 0, and when such a block is fed on every frame a
band holding `initialPeak ≥ 0` holds exactly 0 after `⌈initialPeak / 8⌉` calls and
after any larger number of calls. -/
theorem silent_input_decays_to_zero (L : Lib) (hL : L.Sized) (hS : L.Silent)
    (audioWave freqSpectrum : List ℚ) (haw : audioWave.length = numSamples)
    (hfs : spectrumSize ≤ freqSpectrum.length) :
    numSamples = 4608 ∧ spectrumSize = 80 ∧ silentBlock.length = 4608 ∧
    (∃ aw' fs', updateSpectrumValues L silentBlock audioWave 0 450 freqSpectrum = some (aw', fs') ∧
      bandMagnitudes L 450 (L.fftReal aw') = List.replicate 80 0) ∧
    (∀ i, i < 80 → ∀ initialPeak : ℚ, freqSpectrum[i]? = some initialPeak → 0 ≤ initialPeak →
      ∀ k : Nat, ⌈initialPeak / 8⌉₊ ≤ k →
        ∃ aw' fs', runFrames L (List.replicate k (silentBlock, 450)) (audioWave, freqSpectrum) =
            some (aw', fs') ∧ fs'[i]? = some 0) := by
  refine ⟨rfl, rfl, by rw [silentBlock, List.length_replicate]; rfl, ?_, ?_⟩
  · obtain ⟨fs', h, -, -⟩ :=
      silent_update L hL hS audioWave freqSpectrum 0 450 (by norm_num) haw hfs
    refine ⟨_, fs', h, ?_⟩
    rw [hS.1, bandMagnitudes, List.eq_replicate_iff]
    refine ⟨by rw [List.length_map, List.length_take, List.length_replicate]; rfl, ?_⟩
    intro x hx
    obtain ⟨c, hc, hcx⟩ := List.mem_map.mp hx
    have hc0 : c = (0, 0) := (List.mem_replicate.mp (List.mem_of_mem_take hc)).2
    rw [← hcx, hc0]
    exact clampedMagnitude_zero L hS 450 (by norm_num)
  · intro i hi p hp hp0 k hk
    obtain ⟨aw', fs', h, hv⟩ :=
      silent_run L hL hS 450 (by norm_num) i hi k audioWave freqSpectrum p haw hfs hp
    refine ⟨aw', fs', h, ?_⟩
    rw [hv, decay_spec k p hp0]
    have h1 : p / 8 ≤ (k : ℚ) := le_trans (Nat.le_ceil _) (by exact_mod_cast hk)
    have h2 : p - (k : ℚ) * 8 ≤ 0 := by linarith
    rw [max_eq_right h2]

/-- Witness of C6: three silent frames bring a band from 20 to 0. -/
theorem silent_input_decays_to_zero_witness :
    ∃ aw' fs', runFrames sampleLib (List.replicate 3 (silentBlock, 450))
        (initState.audioWave, List.replicate spectrumSize 20) = some (aw', fs') ∧
      fs'[0]? = some 0 :=
  (silent_input_decays_to_zero sampleLib sampleLib_sized sampleLib_silent initState.audioWave
    (List.replicate spectrumSize 20) (by simp [initState]) (by simp)).2.2.2.2 0 (by norm_num) 20
    (by simp [spectrumSize]) (by norm_num) 3 (by rw [Nat.ceil_le]; norm_num)

/-- C7 fails as stated: the block size 4608 is not a power of two. -/
theorem numSamples_not_power_of_two : ¬ ∃ k : ℕ, numSamples = 2 ^ k := by
  rintro ⟨k, hk⟩
  have hlt : k < 13 := by
    by_contra hcon
    have h13 : 2 ^ 13 ≤ 2 ^ k := Nat.pow_le_pow_right (by norm_num) (not_lt.mp hcon)
    rw [← hk] at h13
    norm_num [numSamples] at h13
  interval_cases k <;> simp [numSamples] at hk

/-- C7, amended. The block size `numSamples` is `4608 = 2 ^ 9 * 9`, strictly
between `2 ^ 12` and `2 ^ 13`; it is the length of `buf` and of `audioWave`; and
the number of bands `spectrumSize = 80` is at most half of it. -/
theorem block_size_and_band_count :
    numSamples = 2 ^ 9 * 9 ∧ 2 ^ 12 < numSamples ∧ numSamples < 2 ^ 13 ∧
      initState.buf.length = numSamples ∧ initState.audioWave.length = numSamples ∧
      initState.freqSpectrum.length = spectrumSize ∧ spectrumSize = 80 ∧
      spectrumSize ≤ numSamples / 2 := by
  refine ⟨by norm_num [numSamples], by norm_num [numSamples], by norm_num [numSamples],
    by simp [initState], by simp [initState], by simp [initState], rfl,
    by norm_num [numSamples, spectrumSize]⟩

/-- C8, evaluation at the failing input. While playing with every band at 100,
a read that returns `io.EOF` (and no byte) sets `isPlaying` to false, yet the same
iteration runs `updateSpectrumValues` on the buffer left from the previous frame:
band 0 goes from 100 to 92, the buffer is written to the player again and the
bars are drawn.  A read error other than `io.EOF` is returned from `play`. -/
theorem eof_step_still_runs_pipeline :
    (∃ r, playStep sampleLib eofFrame playingState = Except.ok r ∧
      r.state.isPlaying = false ∧
      playingState.freqSpectrum[0]? = some 100 ∧ r.state.freqSpectrum[0]? = some 92 ∧
      r.written = some silentBlock ∧
      r.view = View.spectrum r.state.freqSpectrum playingState.nowPlayingText) ∧
    playStep sampleLib failFrame playingState = Except.error (Abort.returned "read failed") := by
  constructor
  · have h450 : ((toInt32 eofFrame.screenHeight : Int) : ℚ) = 450 := by
      norm_num [toInt32, eofFrame]
    obtain ⟨fs', h, -, hv⟩ :=
      silent_update sampleLib sampleLib_sized sampleLib_silent playingState.audioWave
        playingState.freqSpectrum eofFrame.sampleRate 450 (by norm_num)
        (by simp [playingState]) (by simp [playingState])
    have hbuf : readInto playingState.buf eofFrame.readBytes = silentBlock := by
      have : eofFrame.readBytes = [] := rfl
      rw [this, readInto_nil]
      rfl
    have hstep := playStep_eof sampleLib eofFrame playingState (List.replicate numSamples 0) fs'
      rfl rfl rfl (by rw [hbuf, h450]; exact h)
    refine ⟨_, hstep, rfl, ?_, ?_, ?_, rfl⟩
    · simp [playingState, spectrumSize]
    · show fs'[0]? = some 92
      rw [hv 0 (by norm_num [spectrumSize]) 100 (by simp [playingState, spectrumSize]),
        smooth_of_gt _ _ (by norm_num)]
      norm_num
    · show some (readInto playingState.buf eofFrame.readBytes) = some silentBlock
      rw [hbuf]
  · simp [playStep, dropStep, failFrame, playingState, readCheck]

/-- C9. Range of the smoothing update: for `prev ≥ 0` and any `val` the new
value lies between `0` and `max prev val`; so it is at most `H` when `prev` and
`val` are, and every band stays non-negative through any sequence of calls of
`updateSpectrumValues` from the all-zero initial Display State, whatever the
input blocks and the values of `maxValue` (negative ones included). -/
theorem smoothing_range_invariant :
    (∀ prev val : ℚ, 0 ≤ prev → 0 ≤ smooth prev val ∧ smooth prev val ≤ max prev val) ∧
    (∀ prev val H : ℚ, 0 ≤ prev → prev ≤ H → val ≤ H → smooth prev val ≤ H) ∧
    (∀ L : Lib, L.Sized → ∀ frames : List (List Byte × ℚ),
      (∀ f ∈ frames, numSamples ≤ f.1.length) →
        ∃ aw fs, runFrames L frames (initState.audioWave, initState.freqSpectrum) = some (aw, fs) ∧
          fs.length = spectrumSize ∧ ∀ x ∈ fs, (0 : ℚ) ≤ x) := by
  refine ⟨fun prev val hp => ⟨smooth_nonneg prev val hp, smooth_le_max prev val hp⟩, ?_, ?_⟩
  · intro prev val H hp hpH hvH
    exact le_trans (smooth_le_max prev val hp) (max_le hpH hvH)
  · intro L hL frames hall
    obtain ⟨aw, fs, h, -, hlen, hinv⟩ :=
      runFrames_inv L hL (fun fs => ∀ x ∈ fs, (0 : ℚ) ≤ x)
        (fun buffer maxValue aw fs aw' fs' hb ha hf hi hu =>
          update_nonneg L buffer maxValue aw fs aw' fs' hL hb ha hf hi hu)
        frames hall initState.audioWave initState.freqSpectrum
        (by simp [initState]) (by simp [initState])
        (by intro x hx; simp [initState] at hx; rw [hx.2])
    exact ⟨aw, fs, h, by rw [hlen]; simp [initState], hinv⟩

/-- Witness of C9: the update at `prev = 10`, `val = -3`, and two frames (a
silent one at height 450, one at height -1) from the initial state. -/
theorem smoothing_range_invariant_witness :
    ((0 : ℚ) ≤ smooth 10 (-3) ∧ smooth 10 (-3) ≤ max 10 (-3)) ∧
    ∃ aw fs, runFrames sampleLib [(silentBlock, 450), (silentBlock, -1)]
        (initState.audioWave, initState.freqSpectrum) = some (aw, fs) ∧
      fs.length = spectrumSize ∧ ∀ x ∈ fs, (0 : ℚ) ≤ x :=
  ⟨smoothing_range_invariant.1 10 (-3) (by norm_num),
    smoothing_range_invariant.2.2 sampleLib sampleLib_sized
      [(silentBlock, 450), (silentBlock, -1)] (by simp [silentBlock])⟩

/-- C10. Byte-to-sample conversion: the sample loop stores at every index
`i < 4608` a value that is a function of the byte `buffer[i]` alone: the digit
value when the byte is an ASCII digit `0x30..0x39`, and `0` for every other byte;
each sample is an integer between 0 and 9, and a block without digit bytes
becomes the all-zero block. -/
theorem byte_to_sample_conversion (buffer : List Byte) (audioWave : List ℚ)
    (hbuf : numSamples ≤ buffer.length) (haw : numSamples ≤ audioWave.length) :
    ∃ aw1, forRange numSamples (sampleStep buffer) audioWave = some aw1 ∧
      aw1.length = audioWave.length ∧
      (∀ i, i < 4608 → ∃ b : Byte, buffer[i]? = some b ∧
        aw1[i]? = some (if 0x30 ≤ b.val ∧ b.val ≤ 0x39 then ((b.val - 0x30 : Nat) : ℚ) else 0) ∧
        ∃ d : Nat, d ≤ 9 ∧ aw1[i]? = some (d : ℚ)) ∧
      ((∀ b ∈ buffer, ¬ (0x30 ≤ b.val ∧ b.val ≤ 0x39)) → ∀ i, i < 4608 → aw1[i]? = some 0) := by
  obtain ⟨aw1, h1, hlen, hlow, -⟩ := sampleLoop_spec buffer audioWave numSamples hbuf haw
  have key : ∀ i, i < 4608 → ∃ b : Byte, buffer[i]? = some b ∧ b ∈ buffer ∧
      aw1[i]? = some (if 48 ≤ b.val ∧ b.val ≤ 57 then ((b.val - 48 : Nat) : ℚ) else 0) := by
    intro i hi
    have hib : i < buffer.length := lt_of_lt_of_le hi hbuf
    refine ⟨buffer[i], List.getElem?_eq_getElem hib, List.getElem_mem hib, ?_⟩
    rw [hlow i hi hib, sampleOfByte_eq]
  refine ⟨aw1, h1, hlen, ?_, ?_⟩
  · intro i hi
    obtain ⟨b, hb, -, hv⟩ := key i hi
    refine ⟨b, hb, hv, ?_⟩
    by_cases h : 48 ≤ b.val ∧ b.val ≤ 57
    · exact ⟨b.val - 48, by omega, by rw [hv, if_pos h]⟩
    · exact ⟨0, by omega, by rw [hv, if_neg h]; simp⟩
  · intro hnone i hi
    obtain ⟨b, -, hmem, hv⟩ := key i hi
    rw [hv, if_neg (hnone b hmem)]

/-- Witness of C10 on the all-zero block. -/
theorem byte_to_sample_conversion_witness :
    numSamples ≤ silentBlock.length ∧
      ∃ aw1, forRange numSamples (sampleStep silentBlock) initState.audioWave = some aw1 ∧
        aw1.length = numSamples := by
  obtain ⟨aw1, h1, hlen, -, -⟩ :=
    byte_to_sample_conversion silentBlock initState.audioWave (by simp [silentBlock])
      (by simp [initState])
  exact ⟨by simp [silentBlock], aw1, h1, by rw [hlen]; simp [initState]⟩

end WaveOfHell
